import Mathlib

/-!
Shallow embedding of the two block ciphers of the repository
(`src/lab3/main.py`: a GOST-28147-89-style cipher; `src/lab2/main.py`:
a toy Feistel cipher), together with proofs about the properties their
specification states.

Bytes are modelled as `Nat` values (the interesting statements carry
`< 256` bounds), byte strings as `List Nat`, and Python's unbounded
integers as `Nat`.  Python operations that raise are modelled with
`Option` (`none` = the call raises).  Python's `s & ~m` on nonnegative
integers is encoded as `s ^^^ (s &&& m)`, which clears exactly the bits
of `m` in `s`.
-/

/-- The 4 bytes of `struct.pack` format `<I` (little-endian 32-bit word). -/
def le32ToBytes (w : Nat) : List Nat :=
  [w % 256, w / 256 % 256, w / 65536 % 256, w / 16777216 % 256]

/-- `struct.unpack` format `<I`: 4 little-endian bytes to a 32-bit word. -/
def bytesToLe32 : List Nat → Nat
  | [b0, b1, b2, b3] => b0 + 256 * b1 + 65536 * b2 + 16777216 * b3
  | _ => 0

/-- lab3 `SBOX`: the fixed 8 × 16 substitution table. -/
def SBOX : List (List Nat) :=
  [[4, 10, 9, 2, 13, 8, 0, 14, 6, 11, 1, 12, 7, 15, 5, 3],
   [14, 11, 4, 12, 6, 13, 15, 10, 2, 3, 8, 1, 0, 7, 5, 9],
   [5, 8, 1, 13, 10, 3, 4, 2, 14, 15, 12, 7, 6, 0, 9, 11],
   [7, 13, 10, 1, 0, 8, 9, 15, 14, 4, 6, 11, 2, 5, 3, 12],
   [12, 6, 15, 10, 2, 9, 1, 7, 4, 14, 0, 5, 11, 3, 8, 13],
   [11, 3, 6, 8, 15, 0, 1, 12, 2, 5, 14, 7, 9, 10, 4, 13],
   [8, 15, 2, 5, 12, 11, 7, 6, 0, 4, 14, 9, 10, 1, 13, 3],
   [10, 2, 7, 1, 13, 8, 15, 9, 12, 0, 5, 11, 6, 14, 3, 4]]

/-- Python `SBOX[j][n]` (always called with `j < 8`, `n < 16`). -/
def sboxAt (j n : Nat) : Nat := (SBOX.getD j []).getD n 0

/-- One iteration of the nibble-substitution loop in
`gost_encrypt_block` / `gost_decrypt_block`:
`s = (s & ~(0xF << (28 - j*4))) | (SBOX[j][(s >> (28 - j*4)) & 0xF] << (28 - j*4))`.
`s & ~m` is encoded as `s ^^^ (s &&& m)`. -/
def gostSubStep (s j : Nat) : Nat :=
  (s ^^^ (s &&& (0xF <<< (28 - j * 4)))) |||
    (sboxAt j ((s >>> (28 - j * 4)) &&& 0xF) <<< (28 - j * 4))

/-- The full 8-nibble substitution loop (`for j in range(8)`). -/
def gostSubstitute (s : Nat) : Nat := List.foldl gostSubStep s (List.range 8)

/-- The body computing `s` in one GOST round:
`s = (n1 + k) & 0xFFFFFFFF`, nibble substitution, rotate left by 11. -/
def gostRoundF (n1 k : Nat) : Nat :=
  ((gostSubstitute ((n1 + k) &&& 0xFFFFFFFF) <<< 11) |||
    (gostSubstitute ((n1 + k) &&& 0xFFFFFFFF) >>> 21)) &&& 0xFFFFFFFF

/-- One GOST round: `n1, n2 = n2 ^ s, n1`. -/
def gostRound (st : Nat × Nat) (k : Nat) : Nat × Nat :=
  (st.2 ^^^ gostRoundF st.1 k, st.1)

/-- `struct.unpack` format `<II` on an 8-byte block: the pair `(n1, n2)`. -/
def gost_unpack (block : List Nat) : Nat × Nat :=
  (bytesToLe32 (block.take 4), bytesToLe32 (block.drop 4))

/-- `struct.pack` format `<II` of `(n2, n1)`: the final swap on output. -/
def gost_pack (st : Nat × Nat) : List Nat :=
  le32ToBytes st.2 ++ le32ToBytes st.1

/-- The key sequence `key[i % 8]` for `i = 0..31` used by encryption. -/
def gost_enc_keys (key : List Nat) : List Nat :=
  (List.range 32).map fun i => key.getD (i % 8) 0

/-- lab3 `gost_encrypt_block`.  `struct.unpack` rejects a block that is
not exactly 8 bytes (modelled as `none`); the loop runs `i = 0..31` with
`k = key[i % 8]`, and the output packs the final pair swapped. -/
def gost_encrypt_block (block key : List Nat) : Option (List Nat) :=
  if block.length = 8 then
    some (gost_pack (List.foldl gostRound (gost_unpack block) (gost_enc_keys key)))
  else none

/-- lab3 `gost_decrypt_block`: identical to encryption except the loop
runs `i = 31..0`, i.e. the round keys are used in reverse order. -/
def gost_decrypt_block (block key : List Nat) : Option (List Nat) :=
  if block.length = 8 then
    some (gost_pack (List.foldl gostRound (gost_unpack block)
      (((List.range 32).reverse).map fun i => key.getD (i % 8) 0)))
  else none

/-- lab3 `pkcs7_pad` (with the default `block_size=8`, the only value used):
`pad_len = 8 - len(data) % 8; return data + bytes([pad_len] * pad_len)`. -/
def pkcs7_pad (data : List Nat) : List Nat :=
  data ++ List.replicate (8 - data.length % 8) (8 - data.length % 8)

/-- lab3 `pkcs7_unpad`.  `data[-1]` raises `IndexError` on an empty input
(modelled as `none`); `pad_len > len(data)` or a mismatching byte among
`data[-pad_len:]` raises `ValueError` (`none`).  Python slice semantics:
`data[-p:]` is the whole buffer when `p = 0`, and `data[:-p]` is empty
when `p = 0`. -/
def pkcs7_unpad (data : List Nat) : Option (List Nat) :=
  (data.getLast?).bind fun pad_len =>
    if pad_len > data.length ∨
        (if pad_len = 0 then data else data.drop (data.length - pad_len)).any
          (fun p => p ≠ pad_len) then
      Option.none
    else
      some (if pad_len = 0 then [] else data.take (data.length - pad_len))

/-- The 4-byte chunking underlying `struct.unpack` format `<8I`. -/
def chunksOf4 : List Nat → List (List Nat)
  | b0 :: b1 :: b2 :: b3 :: rest => [b0, b1, b2, b3] :: chunksOf4 rest
  | [] => []
  | l => [l]

/-- lab3 `load_key`, with the file contents passed in as bytes:
reject anything but exactly 32 bytes, otherwise `struct.unpack` of
8 little-endian unsigned 32-bit words. -/
def load_key (key_data : List Nat) : Option (List Nat) :=
  if key_data.length = 32 then
    some ((chunksOf4 key_data).map bytesToLe32)
  else Option.none

/-- The 8-byte chunking performed by `for i in range(0, len(data), 8)`
with slices `data[i:i+8]` (the final chunk may be shorter). -/
def chunksOf8 : List Nat → List (List Nat)
  | b0 :: b1 :: b2 :: b3 :: b4 :: b5 :: b6 :: b7 :: rest =>
      [b0, b1, b2, b3, b4, b5, b6, b7] :: chunksOf8 rest
  | [] => []
  | l => [l]

/-- The per-block decryption join of lab3 `decrypt_file`:
`b"".join(gost_decrypt_block(encrypted_data[i:i+8], key) for i in
range(0, len(encrypted_data), 8))`.  The first failing block (a short
final chunk makes `struct.unpack` raise) aborts the whole join. -/
def joinBlocks (key : List Nat) : List (List Nat) → Option (List Nat)
  | [] => some []
  | c :: rest =>
    match gost_decrypt_block c key, joinBlocks key rest with
    | some b, some bs => some (b ++ bs)
    | _, _ => Option.none

/-- The block-decryption stage of lab3 `decrypt_file` on raw ciphertext
bytes (file handling and base64 detection are out of scope). -/
def gost_decrypt_data (encrypted_data key : List Nat) : Option (List Nat) :=
  joinBlocks key (chunksOf8 encrypted_data)

/-! ## lab2: the toy Feistel cipher -/

/-- lab2 `split_block`: `((block >> 32) & 0xFFFFFFFF, block & 0xFFFFFFFF)`. -/
def split_block (block : Nat) : Nat × Nat :=
  ((block >>> 32) &&& 0xFFFFFFFF, block &&& 0xFFFFFFFF)

/-- lab2 `combine_halves`: `(left << 32) | right`. -/
def combine_halves (left right : Nat) : Nat := (left <<< 32) ||| right

/-- lab2 `feistel_function`: XOR with the round key, rotate right 8,
rotate left 3, XOR with `(round_key << 5) & 0xFFFFFFFF`. -/
def feistel_function (half_block round_key : Nat) : Nat :=
  let r1 := half_block ^^^ round_key
  let r2 := ((r1 >>> 8) ||| (r1 <<< 24)) &&& 0xFFFFFFFF
  let r3 := ((r2 <<< 3) ||| (r2 >>> 29)) &&& 0xFFFFFFFF
  r3 ^^^ ((round_key <<< 5) &&& 0xFFFFFFFF)

/-- lab2 `generate_round_keys`:
`shifted_key = ((master_key << i) | (master_key >> (64 - i))) & 2^64-1`;
`round_key = shifted_key ^ (i * 0x0123456789ABCDEF)`; keep the low 32
bits.  The Python default `rounds=16` is passed explicitly at each
call site here. -/
def generate_round_keys (master_key rounds : Nat) : List Nat :=
  (List.range rounds).map fun i =>
    ((((master_key <<< i) ||| (master_key >>> (64 - i))) &&& 0xFFFFFFFFFFFFFFFF)
      ^^^ (i * 0x0123456789ABCDEF)) &&& 0xFFFFFFFF

/-- lab2 `feistel_round`: `(right, left ^ F(right, round_key))`. -/
def feistel_round (left right round_key : Nat) : Nat × Nat :=
  (right, left ^^^ feistel_function right round_key)

/-- lab2 `encrypt_block` (round keys in forward order, halves swapped on
output by `combine_halves(right, left)`). -/
def encrypt_block (block master_key rounds : Nat) : Nat :=
  combine_halves
    (List.foldl (fun p k => feistel_round p.1 p.2 k) (split_block block)
      (generate_round_keys master_key rounds)).2
    (List.foldl (fun p k => feistel_round p.1 p.2 k) (split_block block)
      (generate_round_keys master_key rounds)).1

/-- lab2 `decrypt_block`: same as encryption with the round keys used in
reverse order (`for i in range(rounds - 1, -1, -1)`). -/
def decrypt_block (block master_key rounds : Nat) : Nat :=
  combine_halves
    (List.foldl (fun p k => feistel_round p.1 p.2 k) (split_block block)
      (generate_round_keys master_key rounds).reverse).2
    (List.foldl (fun p k => feistel_round p.1 p.2 k) (split_block block)
      (generate_round_keys master_key rounds).reverse).1

/-- The padding step inside lab2 `text_to_blocks` (lines 181-184):
`padding_size = 8 - len % 8; if padding_size < 8: append padding_size
bytes of value padding_size` — nothing is appended when the input is
already 8-byte aligned. -/
def lab2pad (bytes_data : List Nat) : List Nat :=
  if 8 - bytes_data.length % 8 < 8 then
    bytes_data ++ List.replicate (8 - bytes_data.length % 8) (8 - bytes_data.length % 8)
  else bytes_data

/-- `struct.pack` format `>Q`: a 64-bit value as 8 big-endian bytes. -/
def natToBe64 (n : Nat) : List Nat :=
  [n / 72057594037927936 % 256, n / 281474976710656 % 256,
   n / 1099511627776 % 256, n / 4294967296 % 256, n / 16777216 % 256,
   n / 65536 % 256, n / 256 % 256, n % 256]

/-- `struct.unpack` format `>Q` on an 8-byte chunk (every chunk fed to it
in `text_to_blocks` has exactly 8 bytes). -/
def beBytesToNat : List Nat → Nat
  | [b0, b1, b2, b3, b4, b5, b6, b7] =>
    b7 + 256 * b6 + 65536 * b5 + 16777216 * b4 + 4294967296 * b3 +
      1099511627776 * b2 + 281474976710656 * b1 + 72057594037927936 * b0
  | _ => 0

/-- lab2 `text_to_blocks` on the UTF-8 bytes of the text: pad (only when
not aligned), split into 8-byte chunks, read each big-endian. -/
def text_to_blocks (text : List Nat) : List Nat :=
  (chunksOf8 (lab2pad text)).map beBytesToNat

/-- lab2 `blocks_to_text`: concatenate the big-endian bytes of every
block, then `padding_size = bytes_data[-1]` (an `IndexError` — `none` —
on an empty buffer) and strip `bytes_data[:-padding_size]` when
`padding_size < 8` (`[:-0]` yields the empty buffer).  The final UTF-8
decode is modelled as the identity on bytes. -/
def blocks_to_text (blocks : List Nat) : Option (List Nat) :=
  (((blocks.map natToBe64).flatten).getLast?).map fun padding_size =>
    if padding_size < 8 then
      (if padding_size = 0 then []
       else ((blocks.map natToBe64).flatten).take
         (((blocks.map natToBe64).flatten).length - padding_size))
    else (blocks.map natToBe64).flatten

/-- lab2 `encrypt_text` (on UTF-8 bytes): encrypt every block. -/
def encrypt_text (text : List Nat) (key : Nat) : List Nat :=
  (text_to_blocks text).map fun b => encrypt_block b key 16

/-- lab2 `decrypt_text`: decrypt every block, then `blocks_to_text`. -/
def decrypt_text (encrypted_blocks : List Nat) (key : Nat) : Option (List Nat) :=
  blocks_to_text (encrypted_blocks.map fun b => decrypt_block b key 16)

/-- Rotation of a 64-bit value left by `i` bits, written arithmetically:
the low `64 - i` bits move up by `i` places and the top `i` bits wrap
to the bottom (the specification's reading of the round-key rotation). -/
def rotl64 (k i : Nat) : Nat := (k % 2 ^ (64 - i)) * 2 ^ i + k / 2 ^ (64 - i)

/-- The `j`-th 4-bit nibble of `s`, counted from the most significant
nibble of a 32-bit value, exactly as the substitution loop reads it:
`(s >> (28 - j*4)) & 0xF`. -/
def nib (s j : Nat) : Nat := (s >>> (28 - j * 4)) &&& 0xF

/-- The nibble-substitution step as a self-map of `Fin (2 ^ 32)` (the
`% 2 ^ 32` is shown to be the identity on the range of
`gostSubstitute` below). -/
def gostSubstituteFin (x : Fin (2 ^ 32)) : Fin (2 ^ 32) :=
  ⟨gostSubstitute x.1 % 2 ^ 32, Nat.mod_lt _ (by norm_num)⟩

/-! ## Generic Feistel-network lemmas -/

/-- Folding a Feistel round over the reversed key list undoes the forward
fold, provided a single round satisfies `R (swap (R st k)) k = swap st`. -/
theorem feistel_foldl_reverse (R : Nat × Nat → Nat → Nat × Nat)
    (h : ∀ st k, R (Prod.swap (R st k)) k = Prod.swap st) :
    ∀ (ks : List Nat) (st : Nat × Nat),
      List.foldl R (Prod.swap (List.foldl R st ks)) ks.reverse = Prod.swap st := by
  intro ks
  induction ks with
  | nil => intro st; rfl
  | cons k ks ih =>
    intro st
    rw [List.foldl_cons, List.reverse_cons, List.foldl_append, ih (R st k)]
    simp [h]

theorem gostRound_swap (st : Nat × Nat) (k : Nat) :
    gostRound (Prod.swap (gostRound st k)) k = Prod.swap st := by
  simp [gostRound, Prod.swap, Nat.xor_cancel_right]

theorem feistel_round_swap (st : Nat × Nat) (k : Nat) :
    (fun p k => feistel_round p.1 p.2 k) (Prod.swap ((fun p k => feistel_round p.1 p.2 k) st k)) k
      = Prod.swap st := by
  simp [feistel_round, Prod.swap, Nat.xor_cancel_right]

/-! ## Byte/word conversion lemmas -/

theorem bytesToLe32_le32ToBytes {w : Nat} (h : w < 2 ^ 32) :
    bytesToLe32 (le32ToBytes w) = w := by
  simp only [le32ToBytes, bytesToLe32]
  omega

theorem le32ToBytes_bytesToLe32 {bs : List Nat} (hl : bs.length = 4)
    (hb : ∀ b ∈ bs, b < 256) : le32ToBytes (bytesToLe32 bs) = bs := by
  match bs, hl with
  | [b0, b1, b2, b3], _ =>
    have h0 := hb b0 (by simp)
    have h1 := hb b1 (by simp)
    have h2 := hb b2 (by simp)
    have h3 := hb b3 (by simp)
    simp only [le32ToBytes, bytesToLe32, List.cons.injEq, and_true]
    refine ⟨?_, ?_, ?_, ?_⟩ <;> omega

theorem bytesToLe32_lt (bs : List Nat) (hb : ∀ b ∈ bs, b < 256) :
    bytesToLe32 bs < 2 ^ 32 := by
  match bs with
  | [b0, b1, b2, b3] =>
    have h0 := hb b0 (by simp)
    have h1 := hb b1 (by simp)
    have h2 := hb b2 (by simp)
    have h3 := hb b3 (by simp)
    simp only [bytesToLe32]
    omega
  | [] => simp [bytesToLe32]
  | [_] => simp [bytesToLe32]
  | [_, _] => simp [bytesToLe32]
  | [_, _, _] => simp [bytesToLe32]
  | _ :: _ :: _ :: _ :: _ :: _ => simp [bytesToLe32]

theorem gostRoundF_lt (n1 k : Nat) : gostRoundF n1 k < 2 ^ 32 := by
  exact Nat.and_lt_two_pow _ (by norm_num)

theorem gost_state_lt (ks : List Nat) :
    ∀ st : Nat × Nat, st.1 < 2 ^ 32 → st.2 < 2 ^ 32 →
      (List.foldl gostRound st ks).1 < 2 ^ 32 ∧
        (List.foldl gostRound st ks).2 < 2 ^ 32 := by
  induction ks with
  | nil => exact fun st h1 h2 => ⟨h1, h2⟩
  | cons k ks ih =>
    intro st h1 h2
    exact ih _ (Nat.xor_lt_two_pow h2 (gostRoundF_lt st.1 k)) h1

theorem gost_pack_length (st : Nat × Nat) : (gost_pack st).length = 8 := by
  simp [gost_pack, le32ToBytes]

theorem gost_unpack_pack (st : Nat × Nat) (h1 : st.1 < 2 ^ 32)
    (h2 : st.2 < 2 ^ 32) : gost_unpack (gost_pack st) = Prod.swap st := by
  obtain ⟨a, b⟩ := st
  simp only [gost_pack, gost_unpack, Prod.swap]
  have ht : (le32ToBytes b ++ le32ToBytes a).take 4 = le32ToBytes b := rfl
  have hd : (le32ToBytes b ++ le32ToBytes a).drop 4 = le32ToBytes a := rfl
  rw [ht, hd, bytesToLe32_le32ToBytes h2, bytesToLe32_le32ToBytes h1]

theorem gost_pack_unpack (block : List Nat) (hlen : block.length = 8)
    (hb : ∀ b ∈ block, b < 256) :
    gost_pack (Prod.swap (gost_unpack block)) = block := by
  simp only [gost_unpack, gost_pack, Prod.swap]
  rw [le32ToBytes_bytesToLe32 (by simp [hlen])
      (fun b hm => hb b (List.take_subset 4 block hm)),
    le32ToBytes_bytesToLe32 (by simp [hlen])
      (fun b hm => hb b (List.drop_subset 4 block hm)),
    List.take_append_drop]

/-- C1: for every 8-byte block `b` and every key of eight 32-bit words
`k`, `gost_decrypt_block (gost_encrypt_block b k) k = b` (in particular
for the all-zero and all-one block; the witness instantiates both). -/
theorem gost_block_roundtrip (block key : List Nat) (hlen : block.length = 8)
    (hb : ∀ b ∈ block, b < 256) (hklen : key.length = 8)
    (hk : ∀ w ∈ key, w < 2 ^ 32) :
    (gost_encrypt_block block key).bind (fun c => gost_decrypt_block c key) =
      some block := by
  have hn1 : (gost_unpack block).1 < 2 ^ 32 :=
    bytesToLe32_lt _ fun b hm => hb b (List.take_subset 4 block hm)
  have hn2 : (gost_unpack block).2 < 2 ^ 32 :=
    bytesToLe32_lt _ fun b hm => hb b (List.drop_subset 4 block hm)
  obtain ⟨hfin1, hfin2⟩ :=
    gost_state_lt (gost_enc_keys key) (gost_unpack block) hn1 hn2
  unfold gost_encrypt_block gost_decrypt_block
  rw [if_pos hlen, Option.some_bind, if_pos (gost_pack_length _),
    gost_unpack_pack _ hfin1 hfin2,
    show ((List.range 32).reverse).map (fun i => key.getD (i % 8) 0) =
      (gost_enc_keys key).reverse by simp [gost_enc_keys],
    feistel_foldl_reverse gostRound gostRound_swap,
    gost_pack_unpack block hlen hb]

theorem pair_swap_eq {α β : Type} (p : α × β) : (p.2, p.1) = Prod.swap p := rfl

theorem combine_halves_eq (l r : Nat) (hr : r < 2 ^ 32) :
    combine_halves l r = 2 ^ 32 * l + r := by
  rw [combine_halves, Nat.shiftLeft_eq, Nat.mul_comm, ← Nat.mul_add_lt_is_or hr]

theorem split_block_eq (b : Nat) :
    split_block b = (b / 2 ^ 32 % 2 ^ 32, b % 2 ^ 32) := by
  rw [split_block, Nat.shiftRight_eq_div_pow,
    show (0xFFFFFFFF : Nat) = 2 ^ 32 - 1 by norm_num,
    Nat.and_pow_two_sub_one_eq_mod, Nat.and_pow_two_sub_one_eq_mod]

theorem split_combine {l r : Nat} (hl : l < 2 ^ 32) (hr : r < 2 ^ 32) :
    split_block (combine_halves l r) = (l, r) := by
  rw [combine_halves_eq l r hr, split_block_eq, Prod.mk.injEq]
  omega

theorem combine_split {b : Nat} (hb : b < 2 ^ 64) :
    combine_halves (split_block b).1 (split_block b).2 = b := by
  rw [split_block_eq]
  rw [combine_halves_eq _ _ (Nat.mod_lt _ (by norm_num))]
  omega

theorem feistel_function_lt (half_block round_key : Nat) :
    feistel_function half_block round_key < 2 ^ 32 :=
  Nat.xor_lt_two_pow (Nat.and_lt_two_pow _ (by norm_num))
    (Nat.and_lt_two_pow _ (by norm_num))

theorem toy_state_lt (ks : List Nat) :
    ∀ st : Nat × Nat, st.1 < 2 ^ 32 → st.2 < 2 ^ 32 →
      (List.foldl (fun p k => feistel_round p.1 p.2 k) st ks).1 < 2 ^ 32 ∧
        (List.foldl (fun p k => feistel_round p.1 p.2 k) st ks).2 < 2 ^ 32 := by
  induction ks with
  | nil => exact fun st h1 h2 => ⟨h1, h2⟩
  | cons k ks ih =>
    intro st h1 h2
    exact ih _ h2 (Nat.xor_lt_two_pow h1 (feistel_function_lt st.2 k))

/-- The toy Feistel core round-trips on every 64-bit block, for every key
and every round count (both loops use the same derived key list, the
decryption loop in reverse order). -/
theorem toy_block_roundtrip (block master_key rounds : Nat) (hb : block < 2 ^ 64) :
    decrypt_block (encrypt_block block master_key rounds) master_key rounds = block := by
  have hs1 : (split_block block).1 < 2 ^ 32 := by
    rw [split_block_eq]; exact Nat.mod_lt _ (by norm_num)
  have hs2 : (split_block block).2 < 2 ^ 32 := by
    rw [split_block_eq]; exact Nat.mod_lt _ (by norm_num)
  obtain ⟨hf1, hf2⟩ := toy_state_lt (generate_round_keys master_key rounds)
    (split_block block) hs1 hs2
  unfold encrypt_block decrypt_block
  rw [split_combine hf2 hf1, pair_swap_eq,
    feistel_foldl_reverse _ feistel_round_swap,
    Prod.snd_swap, Prod.fst_swap, combine_split hb]

/-- C2: for every 64-bit block `b` and every 64-bit master key `k`,
`decrypt_block (encrypt_block b k) k = b` with the default 16 rounds:
the toy Feistel core has the same per-block round-trip guarantee as the
GOST core. -/
theorem toy_block_roundtrip_claim (block master_key : Nat) (hb : block < 2 ^ 64)
    (hk : master_key < 2 ^ 64) :
    decrypt_block (encrypt_block block master_key 16) master_key 16 = block :=
  toy_block_roundtrip block master_key 16 hb

theorem beBytesToNat_lt (bs : List Nat) (hb : ∀ b ∈ bs, b < 256) :
    beBytesToNat bs < 2 ^ 64 := by
  match bs with
  | [b0, b1, b2, b3, b4, b5, b6, b7] =>
    have h0 := hb b0 (by simp)
    have h1 := hb b1 (by simp)
    have h2 := hb b2 (by simp)
    have h3 := hb b3 (by simp)
    have h4 := hb b4 (by simp)
    have h5 := hb b5 (by simp)
    have h6 := hb b6 (by simp)
    have h7 := hb b7 (by simp)
    simp only [beBytesToNat]
    omega
  | [] => simp [beBytesToNat]
  | [_] => simp [beBytesToNat]
  | [_, _] => simp [beBytesToNat]
  | [_, _, _] => simp [beBytesToNat]
  | [_, _, _, _] => simp [beBytesToNat]
  | [_, _, _, _, _] => simp [beBytesToNat]
  | [_, _, _, _, _, _] => simp [beBytesToNat]
  | [_, _, _, _, _, _, _] => simp [beBytesToNat]
  | _ :: _ :: _ :: _ :: _ :: _ :: _ :: _ :: _ :: _ => simp [beBytesToNat]

theorem natToBe64_beBytesToNat {bs : List Nat} (hl : bs.length = 8)
    (hb : ∀ b ∈ bs, b < 256) : natToBe64 (beBytesToNat bs) = bs := by
  match bs, hl with
  | [b0, b1, b2, b3, b4, b5, b6, b7], _ =>
    have h0 := hb b0 (by simp)
    have h1 := hb b1 (by simp)
    have h2 := hb b2 (by simp)
    have h3 := hb b3 (by simp)
    have h4 := hb b4 (by simp)
    have h5 := hb b5 (by simp)
    have h6 := hb b6 (by simp)
    have h7 := hb b7 (by simp)
    simp only [natToBe64, beBytesToNat, List.cons.injEq, and_true]
    refine ⟨?_, ?_, ?_, ?_, ?_, ?_, ?_, ?_⟩ <;> omega

theorem chunksOf8_forall (P : Nat → Prop) :
    ∀ l : List Nat, l.length % 8 = 0 → (∀ b ∈ l, P b) →
      ∀ c ∈ chunksOf8 l, c.length = 8 ∧ ∀ b ∈ c, P b := by
  intro l
  induction l using chunksOf8.induct with
  | case1 b0 b1 b2 b3 b4 b5 b6 b7 rest ih =>
    intro hlen hP c hc
    simp only [chunksOf8, List.mem_cons] at hc
    rcases hc with rfl | hc
    · refine ⟨rfl, fun b hb => hP b ?_⟩
      simp only [List.mem_cons] at hb ⊢
      tauto
    · have hrest : rest.length % 8 = 0 := by
        simp only [List.length_cons] at hlen
        omega
      refine (ih hrest (fun b hb => hP b ?_) c hc)
      simp only [List.mem_cons]
      tauto
  | case2 =>
    intro _ _ c hc
    simp [chunksOf8] at hc
  | case3 l h1 h2 =>
    intro hlen _ c hc
    exfalso
    rcases l with _ | ⟨b0, _ | ⟨b1, _ | ⟨b2, _ | ⟨b3, _ | ⟨b4, _ | ⟨b5, _ | ⟨b6, _ | ⟨b7, rest⟩⟩⟩⟩⟩⟩⟩⟩
    · exact h2 rfl
    · simp at hlen
    · simp at hlen
    · simp at hlen
    · simp at hlen
    · simp at hlen
    · simp at hlen
    · simp at hlen
    · exact h1 b0 b1 b2 b3 b4 b5 b6 b7 rest rfl

theorem flatten_map_chunksOf8 (f : List Nat → List Nat) :
    ∀ l : List Nat, l.length % 8 = 0 → (∀ c ∈ chunksOf8 l, f c = c) →
      ((chunksOf8 l).map f).flatten = l := by
  intro l
  induction l using chunksOf8.induct with
  | case1 b0 b1 b2 b3 b4 b5 b6 b7 rest ih =>
    intro hlen hf
    have hrest : rest.length % 8 = 0 := by
      simp only [List.length_cons] at hlen
      omega
    simp only [chunksOf8, List.map_cons, List.flatten_cons]
    rw [hf _ (by simp [chunksOf8]),
      ih hrest (fun c hc => hf c (by simp [chunksOf8, hc]))]
    rfl
  | case2 => intro _ _; rfl
  | case3 l h1 h2 =>
    intro hlen _
    exfalso
    rcases l with _ | ⟨b0, _ | ⟨b1, _ | ⟨b2, _ | ⟨b3, _ | ⟨b4, _ | ⟨b5, _ | ⟨b6, _ | ⟨b7, rest⟩⟩⟩⟩⟩⟩⟩⟩
    · exact h2 rfl
    · simp at hlen
    · simp at hlen
    · simp at hlen
    · simp at hlen
    · simp at hlen
    · simp at hlen
    · simp at hlen
    · exact h1 b0 b1 b2 b3 b4 b5 b6 b7 rest rfl

/-- C3 (amended): the full toy pipeline round-trips on every byte buffer
whose length is NOT a multiple of 8 (then `text_to_blocks` appends a pad
of `p = 8 - len % 8` bytes of value `p`, `1 ≤ p ≤ 7`, which
`blocks_to_text` strips again).  For block-aligned buffers no padding is
appended and the round trip can fail: the empty buffer raises an
`IndexError`, and an aligned buffer whose last byte is below 8 has that
many bytes stripped from it. -/
theorem toy_text_roundtrip (x : List Nat) (key : Nat) (hb : ∀ b ∈ x, b < 256)
    (hlen : x.length % 8 ≠ 0) :
    decrypt_text (encrypt_text x key) key = some x := by
  have hp1 : 1 ≤ 8 - x.length % 8 := by omega
  have hp7 : 8 - x.length % 8 < 8 := by omega
  have hpad : lab2pad x =
      x ++ List.replicate (8 - x.length % 8) (8 - x.length % 8) := by
    rw [lab2pad, if_pos hp7]
  have hpadded_len : (lab2pad x).length % 8 = 0 := by
    rw [hpad]
    simp only [List.length_append, List.length_replicate]
    omega
  have hpadded_bytes : ∀ b ∈ lab2pad x, b < 256 := by
    rw [hpad]
    intro b hbm
    rcases List.mem_append.mp hbm with h | h
    · exact hb b h
    · have := List.eq_of_mem_replicate h
      omega
  have hchunks := chunksOf8_forall (fun b => b < 256) (lab2pad x)
    hpadded_len hpadded_bytes
  have hflat : (((((chunksOf8 (lab2pad x)).map beBytesToNat).map
      (fun b => encrypt_block b key 16)).map
      (fun b => decrypt_block b key 16)).map natToBe64).flatten = lab2pad x := by
    rw [List.map_map, List.map_map, List.map_map]
    refine flatten_map_chunksOf8 _ _ hpadded_len fun c hc => ?_
    obtain ⟨hc8, hcb⟩ := hchunks c hc
    show natToBe64 (decrypt_block (encrypt_block (beBytesToNat c) key 16) key 16) = c
    rw [toy_block_roundtrip _ _ _ (beBytesToNat_lt c hcb),
      natToBe64_beBytesToNat hc8 hcb]
  unfold decrypt_text encrypt_text text_to_blocks blocks_to_text
  rw [hflat, hpad, List.getLast?_append, List.getLast?_replicate,
    if_neg (by omega : ¬ (8 - x.length % 8 = 0)), Option.or_some,
    Option.map_some', if_pos hp7,
    if_neg (by omega : ¬ (8 - x.length % 8 = 0))]
  rw [show (x ++ List.replicate (8 - x.length % 8) (8 - x.length % 8)).length -
      (8 - x.length % 8) = x.length by
    simp only [List.length_append, List.length_replicate]
    omega]
  rw [List.take_left]

/-! ## Padding lemmas (C4, C5, C6) -/

theorem any_ne_replicate (n a : Nat) :
    (List.replicate n a).any (fun b => b ≠ a) = false := by
  induction n with
  | zero => rfl
  | succ n ih => simp [List.replicate_succ, ih]

/-- C4 (amended): `pkcs7_pad` on an 8-byte-aligned input appends a full
block of 8 bytes of value 8 (so the output is 8 bytes longer); the lab2
`text_to_blocks` padding appends nothing there (output unchanged). -/
theorem padding_on_aligned (data : List Nat) (h : data.length % 8 = 0) :
    pkcs7_pad data = data ++ List.replicate 8 8 ∧ lab2pad data = data := by
  constructor
  · rw [pkcs7_pad, h]
  · rw [lab2pad, h]
    simp

theorem padding_on_aligned_witness :
    pkcs7_pad (List.replicate 8 0) = List.replicate 8 0 ++ List.replicate 8 8 ∧
      lab2pad (List.replicate 8 0) = List.replicate 8 0 :=
  padding_on_aligned (List.replicate 8 0) (by decide)

/-- Counterexample to C4 as stated: on the aligned (empty) input the
lab2 padding step appends nothing, so the output is NOT 8 bytes longer. -/
theorem lab2pad_aligned_counterexample :
    ¬ ((lab2pad []).length = ([] : List Nat).length + 8) := by decide

/-- C6: `pkcs7_unpad (pkcs7_pad x) = some x` for every byte buffer `x`
(including the empty buffer); the unpad step never fails on padded data. -/
theorem pkcs7_unpad_pkcs7_pad (data : List Nat) :
    pkcs7_unpad (pkcs7_pad data) = some data := by
  have hp1 : 1 ≤ 8 - data.length % 8 := by omega
  rw [pkcs7_unpad, pkcs7_pad, List.getLast?_append, List.getLast?_replicate,
    if_neg (by omega : ¬ (8 - data.length % 8 = 0)), Option.or_some,
    Option.some_bind,
    if_neg (by omega : ¬ (8 - data.length % 8 = 0)),
    if_neg (by omega : ¬ (8 - data.length % 8 = 0)),
    show (data ++ List.replicate (8 - data.length % 8) (8 - data.length % 8)).length -
        (8 - data.length % 8) = data.length by
      simp only [List.length_append, List.length_replicate]
      omega,
    List.drop_left, List.take_left, any_ne_replicate]
  rw [if_neg]
  simp only [List.length_append, List.length_replicate, Bool.false_eq_true, or_false]
  omega

/-- C5 (amended): reading the last byte as `p`, `pkcs7_unpad` fails iff
`p > len(buffer)` or one of the inspected trailing bytes differs from
`p` — there is NO dedicated `p == 0` or `p > 8` check.  For `p = 0` the
inspected slice `data[-0:]` is the WHOLE buffer (so an all-zero buffer
unpads successfully to the empty buffer), and `p` up to `len(buffer)`
(even `p > 8`) is accepted when the trailing bytes match.  On success
the last `p` bytes are removed (`data[:-0]` being empty). -/
theorem pkcs7_unpad_characterization (data : List Nat) (p : Nat)
    (hlast : data.getLast? = some p) :
    (p > data.length → pkcs7_unpad data = Option.none) ∧
    (1 ≤ p → p ≤ data.length → (∀ b ∈ data.drop (data.length - p), b = p) →
      pkcs7_unpad data = some (data.take (data.length - p))) ∧
    (1 ≤ p → (∃ b ∈ data.drop (data.length - p), b ≠ p) →
      pkcs7_unpad data = Option.none) ∧
    (p = 0 → (∀ b ∈ data, b = 0) → pkcs7_unpad data = some []) ∧
    (p = 0 → (∃ b ∈ data, b ≠ 0) → pkcs7_unpad data = Option.none) := by
  rw [pkcs7_unpad, hlast, Option.some_bind]
  refine ⟨fun h => ?_, fun h1 h2 hall => ?_, fun h1 hex => ?_,
    fun h0 hall => ?_, fun h0 hex => ?_⟩
  · rw [if_pos (Or.inl h)]
  · have hp0 : ¬ p = 0 := by omega
    rw [if_neg hp0, if_neg hp0, if_neg]
    intro hcon
    rcases hcon with hgt | hany
    · omega
    · rcases List.any_eq_true.mp hany with ⟨b, hbmem, hbp⟩
      simp only [decide_eq_true_eq] at hbp
      exact hbp (hall b hbmem)
  · have hp0 : ¬ p = 0 := by omega
    rcases hex with ⟨b, hbmem, hbp⟩
    rw [if_neg hp0, if_pos (Or.inr (List.any_eq_true.mpr
      ⟨b, hbmem, by simp [hbp]⟩))]
  · subst h0
    rw [if_pos rfl, if_pos rfl, if_neg]
    intro hcon
    rcases hcon with hgt | hany
    · omega
    · rcases List.any_eq_true.mp hany with ⟨b, hbmem, hbp⟩
      simp only [decide_eq_true_eq] at hbp
      exact hbp (hall b hbmem)
  · subst h0
    rcases hex with ⟨b, hbmem, hbp⟩
    rw [if_pos rfl, if_pos (Or.inr (List.any_eq_true.mpr
      ⟨b, hbmem, by simp [hbp]⟩))]

theorem pkcs7_unpad_characterization_witness :
    pkcs7_unpad [1, 2, 2] = some [1] :=
  (((pkcs7_unpad_characterization [1, 2, 2] 2 (by decide)).2.1
    (by decide) (by decide) (by decide)).trans (by decide))

/-- Counterexample to C5 as stated: the claim demands an error whenever
the last byte `p` is 0 or exceeds 8, but the code accepts an all-zero
buffer (`p = 0`: the whole buffer is compared against 0 and then fully
sliced away) and a buffer of nine 9s (`p = 9 > 8`). -/
theorem pkcs7_unpad_missing_checks :
    pkcs7_unpad [0] = some [] ∧
      pkcs7_unpad [9, 9, 9, 9, 9, 9, 9, 9, 9] = some [] := by decide

/-! ## Key loading (C7) -/

theorem chunksOf4_length : ∀ l : List Nat, l.length % 4 = 0 →
    (chunksOf4 l).length = l.length / 4 := by
  intro l
  induction l using chunksOf4.induct with
  | case1 b0 b1 b2 b3 rest ih =>
    intro hlen
    have hrest : rest.length % 4 = 0 := by
      simp only [List.length_cons] at hlen
      omega
    simp only [chunksOf4, List.length_cons, ih hrest]
    omega
  | case2 => intro _; rfl
  | case3 l h1 h2 =>
    intro hlen
    exfalso
    rcases l with _ | ⟨b0, _ | ⟨b1, _ | ⟨b2, _ | ⟨b3, rest⟩⟩⟩⟩
    · exact h2 rfl
    · simp at hlen
    · simp at hlen
    · simp at hlen
    · exact h1 b0 b1 b2 b3 rest rfl

theorem getD_cons4 (b0 b1 b2 b3 : Nat) (l : List Nat) (n : Nat) :
    (b0 :: b1 :: b2 :: b3 :: l).getD (n + 4) 0 = l.getD n 0 := by
  rw [show n + 4 = n + 1 + 1 + 1 + 1 by omega]
  simp only [List.getD_cons_succ]

theorem chunksOf4_getD : ∀ (i : Nat) (l : List Nat), 4 * i + 4 ≤ l.length →
    (chunksOf4 l).getD i [] =
      [l.getD (4 * i) 0, l.getD (4 * i + 1) 0, l.getD (4 * i + 2) 0,
        l.getD (4 * i + 3) 0] := by
  intro i
  induction i with
  | zero =>
    intro l hl
    rcases l with _ | ⟨b0, _ | ⟨b1, _ | ⟨b2, _ | ⟨b3, rest⟩⟩⟩⟩ <;>
      simp_all [chunksOf4]
  | succ i ih =>
    intro l hl
    rcases l with _ | ⟨b0, _ | ⟨b1, _ | ⟨b2, _ | ⟨b3, rest⟩⟩⟩⟩
    · simp at hl
    · simp at hl
    · simp at hl
    · simp at hl
    · have hrest : 4 * i + 4 ≤ rest.length := by
        simp only [List.length_cons] at hl
        omega
      rw [show 4 * (i + 1) = 4 * i + 4 by omega,
        show 4 * i + 4 + 1 = 4 * i + 1 + 4 by omega,
        show 4 * i + 4 + 2 = 4 * i + 2 + 4 by omega,
        show 4 * i + 4 + 3 = 4 * i + 3 + 4 by omega,
        getD_cons4, getD_cons4, getD_cons4, getD_cons4]
      simp only [chunksOf4, List.getD_cons_succ]
      exact ih rest hrest

theorem getD_map_bytesToLe32 (l : List (List Nat)) (i : Nat) (h : i < l.length) :
    (l.map bytesToLe32).getD i 0 = bytesToLe32 (l.getD i []) := by
  rw [List.getD_eq_getElem?_getD, List.getD_eq_getElem?_getD, List.getElem?_map,
    List.getElem?_eq_getElem h]
  rfl

/-- C7: `load_key` succeeds iff the key material is exactly 32 bytes,
and then yields exactly the eight unsigned 32-bit words obtained by
reading the bytes little-endian, in order. -/
theorem load_key_characterization (key_data : List Nat) :
    ((load_key key_data).isSome ↔ key_data.length = 32) ∧
    (∀ ws, load_key key_data = some ws →
      ws.length = 8 ∧ ∀ i, i < 8 → ws.getD i 0 =
        key_data.getD (4 * i) 0 + 256 * key_data.getD (4 * i + 1) 0 +
        65536 * key_data.getD (4 * i + 2) 0 +
        16777216 * key_data.getD (4 * i + 3) 0) := by
  constructor
  · rw [load_key]
    by_cases h : key_data.length = 32 <;> simp [h]
  · intro ws hws
    rw [load_key] at hws
    by_cases h : key_data.length = 32
    · rw [if_pos h] at hws
      obtain rfl := Option.some.inj hws
      have hchlen : (chunksOf4 key_data).length = 8 := by
        rw [chunksOf4_length key_data (by omega), h]
      refine ⟨by rw [List.length_map, hchlen], fun i hi => ?_⟩
      rw [getD_map_bytesToLe32 _ _ (by omega),
        chunksOf4_getD i key_data (by omega)]
      simp [bytesToLe32]
    · rw [if_neg h] at hws
      simp at hws

theorem load_key_characterization_witness :
    (load_key (List.replicate 32 0)).isSome ∧ (List.replicate 8 0).length = 8 :=
  ⟨(load_key_characterization (List.replicate 32 0)).1.mpr (by decide),
   ((load_key_characterization (List.replicate 32 0)).2 (List.replicate 8 0)
     (by decide)).1⟩

/-! ## Round-key schedule (C8) -/

theorem shift_or_mod_eq_rotl64 (k i : Nat) (hk : k < 2 ^ 64) (hi : i ≤ 64) :
    ((k <<< i) ||| (k >>> (64 - i))) % 2 ^ 64 = rotl64 k i := by
  have hpow : 2 ^ i * 2 ^ (64 - i) = 2 ^ 64 := by
    rw [← Nat.pow_add, show i + (64 - i) = 64 by omega]
  have hq : k / 2 ^ (64 - i) < 2 ^ i :=
    Nat.div_lt_of_lt_mul (by rw [Nat.mul_comm, hpow]; exact hk)
  rw [Nat.shiftLeft_eq, Nat.shiftRight_eq_div_pow, Nat.mul_comm k (2 ^ i),
    ← Nat.mul_add_lt_is_or hq]
  have e1 : 2 ^ i * k =
      2 ^ 64 * (k / 2 ^ (64 - i)) + 2 ^ i * (k % 2 ^ (64 - i)) := by
    conv_lhs => rw [← Nat.div_add_mod k (2 ^ (64 - i))]
    rw [Nat.mul_add, ← Nat.mul_assoc, hpow]
  have hbound : 2 ^ i * (k % 2 ^ (64 - i)) + k / 2 ^ (64 - i) < 2 ^ 64 := by
    have hr : k % 2 ^ (64 - i) < 2 ^ (64 - i) :=
      Nat.mod_lt _ (Nat.pos_pow_of_pos _ (by norm_num))
    calc 2 ^ i * (k % 2 ^ (64 - i)) + k / 2 ^ (64 - i)
        < 2 ^ i * (k % 2 ^ (64 - i)) + 2 ^ i := by omega
      _ = 2 ^ i * (k % 2 ^ (64 - i) + 1) := by ring
      _ ≤ 2 ^ i * 2 ^ (64 - i) := Nat.mul_le_mul_left _ hr
      _ = 2 ^ 64 := hpow
  rw [e1, Nat.add_assoc, Nat.mul_add_mod, Nat.mod_eq_of_lt hbound, rotl64,
    Nat.mul_comm (2 ^ i) (k % 2 ^ (64 - i))]

/-- C8: for every 64-bit master key and round index `i < 16`, the `i`-th
derived round key is the low 32 bits of
`rotl64(key, i) XOR (i * 0x0123456789ABCDEF mod 2^64)`, and the schedule
has exactly 16 entries. -/
theorem generate_round_keys_characterization (master_key : Nat)
    (hk : master_key < 2 ^ 64) :
    (generate_round_keys master_key 16).length = 16 ∧
    ∀ i, i < 16 → (generate_round_keys master_key 16).getD i 0 =
      (rotl64 master_key i ^^^ (i * 0x0123456789ABCDEF % 2 ^ 64)) % 2 ^ 32 := by
  refine ⟨by simp [generate_round_keys], fun i hi => ?_⟩
  rw [generate_round_keys, List.getD_eq_getElem?_getD, List.getElem?_map,
    List.getElem?_range (by simpa using hi), Option.map_some']
  show ((((master_key <<< i) ||| (master_key >>> (64 - i))) &&&
      0xFFFFFFFFFFFFFFFF) ^^^ (i * 0x0123456789ABCDEF)) &&& 0xFFFFFFFF =
    (rotl64 master_key i ^^^ (i * 0x0123456789ABCDEF % 2 ^ 64)) % 2 ^ 32
  rw [show (0xFFFFFFFFFFFFFFFF : Nat) = 2 ^ 64 - 1 by norm_num,
    show (0xFFFFFFFF : Nat) = 2 ^ 32 - 1 by norm_num,
    Nat.and_pow_two_sub_one_eq_mod, Nat.and_pow_two_sub_one_eq_mod,
    shift_or_mod_eq_rotl64 master_key i hk (by omega),
    Nat.mod_eq_of_lt (show i * 0x0123456789ABCDEF < 2 ^ 64 by omega)]

theorem generate_round_keys_characterization_witness :
    (generate_round_keys 1 16).length = 16 ∧
      (generate_round_keys 1 16).getD 1 0 =
        (rotl64 1 1 ^^^ (1 * 0x0123456789ABCDEF % 2 ^ 64)) % 2 ^ 32 :=
  ⟨(generate_round_keys_characterization 1 (by norm_num)).1,
   (generate_round_keys_characterization 1 (by norm_num)).2 1 (by norm_num)⟩

/-! ## Ciphertext length checking (C9) -/

theorem chunksOf8_exists_short : ∀ l : List Nat, l.length % 8 ≠ 0 →
    ∃ c ∈ chunksOf8 l, c.length ≠ 8 := by
  intro l
  induction l using chunksOf8.induct with
  | case1 b0 b1 b2 b3 b4 b5 b6 b7 rest ih =>
    intro hlen
    have hrest : rest.length % 8 ≠ 0 := by
      simp only [List.length_cons] at hlen
      omega
    obtain ⟨c, hc, hcne⟩ := ih hrest
    exact ⟨c, by simp [chunksOf8, hc], hcne⟩
  | case2 => intro h; simp at h
  | case3 l h1 h2 =>
    intro hlen
    rcases l with _ | ⟨b0, _ | ⟨b1, _ | ⟨b2, _ | ⟨b3, _ | ⟨b4, _ | ⟨b5, _ | ⟨b6, _ | ⟨b7, rest⟩⟩⟩⟩⟩⟩⟩⟩
    · exact absurd rfl h2
    · exact ⟨[b0], by simp [chunksOf8], by simp⟩
    · exact ⟨[b0, b1], by simp [chunksOf8], by simp⟩
    · exact ⟨[b0, b1, b2], by simp [chunksOf8], by simp⟩
    · exact ⟨[b0, b1, b2, b3], by simp [chunksOf8], by simp⟩
    · exact ⟨[b0, b1, b2, b3, b4], by simp [chunksOf8], by simp⟩
    · exact ⟨[b0, b1, b2, b3, b4, b5], by simp [chunksOf8], by simp⟩
    · exact ⟨[b0, b1, b2, b3, b4, b5, b6], by simp [chunksOf8], by simp⟩
    · exact absurd rfl (h1 b0 b1 b2 b3 b4 b5 b6 b7 rest)

theorem gost_decrypt_block_isSome (c key : List Nat) :
    (gost_decrypt_block c key).isSome ↔ c.length = 8 := by
  rw [gost_decrypt_block]
  by_cases h : c.length = 8 <;> simp [h]

theorem joinBlocks_isSome (key : List Nat) : ∀ cs : List (List Nat),
    (joinBlocks key cs).isSome ↔
      ∀ c ∈ cs, (gost_decrypt_block c key).isSome := by
  intro cs
  induction cs with
  | nil => simp [joinBlocks]
  | cons c cs ih =>
    simp only [joinBlocks]
    cases hgd : gost_decrypt_block c key with
    | none => simp [List.forall_mem_cons, hgd]
    | some b =>
      cases hj : joinBlocks key cs with
      | none => simp [List.forall_mem_cons, hgd, ← ih, hj]
      | some bs => simp [List.forall_mem_cons, hgd, ← ih, hj]

/-- C9: the block-decryption stage of `decrypt_file` fails whenever the
ciphertext length is not a multiple of 8 (the short final chunk makes
the per-block `struct.unpack` raise — the spec's `InvalidLength`
condition) and, on block-aligned ciphertext, the per-block decryption
step itself never fails. -/
theorem gost_decrypt_data_length_check (encrypted_data key : List Nat) :
    (encrypted_data.length % 8 ≠ 0 →
      gost_decrypt_data encrypted_data key = Option.none) ∧
    (encrypted_data.length % 8 = 0 →
      (∀ c ∈ chunksOf8 encrypted_data, (gost_decrypt_block c key).isSome) ∧
      (gost_decrypt_data encrypted_data key).isSome) := by
  constructor
  · intro hlen
    obtain ⟨c, hc, hcne⟩ := chunksOf8_exists_short _ hlen
    have hnot : ¬ (joinBlocks key (chunksOf8 encrypted_data)).isSome := by
      rw [joinBlocks_isSome]
      intro hall
      exact hcne ((gost_decrypt_block_isSome c key).mp (hall c hc))
    rw [gost_decrypt_data]
    cases hjb : joinBlocks key (chunksOf8 encrypted_data) with
    | none => rfl
    | some bs => exact absurd (by simp [hjb]) hnot
  · intro hlen
    have hall : ∀ c ∈ chunksOf8 encrypted_data,
        (gost_decrypt_block c key).isSome := by
      intro c hc
      obtain ⟨h8, _⟩ := chunksOf8_forall (fun _ => True) _ hlen
        (fun _ _ => trivial) c hc
      exact (gost_decrypt_block_isSome c key).mpr h8
    exact ⟨hall, by rw [gost_decrypt_data]
                    exact (joinBlocks_isSome key _).mpr hall⟩

theorem gost_decrypt_data_length_check_witness :
    gost_decrypt_data (List.replicate 9 0) (List.replicate 8 0) = Option.none ∧
      (gost_decrypt_data (List.replicate 8 0) (List.replicate 8 0)).isSome :=
  ⟨(gost_decrypt_data_length_check (List.replicate 9 0)
      (List.replicate 8 0)).1 (by decide),
   ((gost_decrypt_data_length_check (List.replicate 8 0)
      (List.replicate 8 0)).2 (by decide)).2⟩

/-! ## The substitution step is a bijection (C10) -/

theorem sboxAt_lt : ∀ j, j < 8 → ∀ n, n < 16 → sboxAt j n < 16 := by decide

theorem sbox_row_injective : ∀ j, j < 8 → ∀ m, m < 16 → ∀ n, n < 16 →
    sboxAt j m = sboxAt j n → m = n := by decide

theorem nib_lt (s j : Nat) : nib s j < 16 := by
  have h := Nat.and_lt_two_pow (s >>> (28 - j * 4))
    (show (0xF : Nat) < 2 ^ 4 by norm_num)
  simpa [nib] using h

theorem testBit_subStep_outside (s v sh i : Nat) (hv : v < 16)
    (hi : i < sh ∨ sh + 4 ≤ i) :
    ((s ^^^ (s &&& (15 <<< sh))) ||| (v <<< sh)).testBit i = s.testBit i := by
  simp only [Nat.testBit_lor, Nat.testBit_xor, Nat.testBit_land,
    Nat.testBit_shiftLeft, show (15 : Nat) = 2 ^ 4 - 1 by norm_num,
    Nat.testBit_two_pow_sub_one]
  rcases hi with hi | hi
  · have h1 : ¬ (sh ≤ i) := by omega
    simp [h1]
  · have h1 : sh ≤ i := by omega
    have h2 : ¬ (i - sh < 4) := by omega
    have h3 : v.testBit (i - sh) = false := Nat.testBit_lt_two_pow (by
      calc v < 16 := hv
        _ = 2 ^ 4 := by norm_num
        _ ≤ 2 ^ (i - sh) := Nat.pow_le_pow_right (by norm_num) (by omega))
    simp [h1, h2, h3]

theorem testBit_subStep_inside (s v sh k : Nat) (hk : k < 4) :
    ((s ^^^ (s &&& (15 <<< sh))) ||| (v <<< sh)).testBit (sh + k) =
      v.testBit k := by
  simp only [Nat.testBit_lor, Nat.testBit_xor, Nat.testBit_land,
    Nat.testBit_shiftLeft, show (15 : Nat) = 2 ^ 4 - 1 by norm_num,
    Nat.testBit_two_pow_sub_one]
  have h1 : sh ≤ sh + k := by omega
  have h2 : sh + k - sh = k := by omega
  simp [h1, h2, hk]

theorem testBit_nib (s j k : Nat) :
    (nib s j).testBit k = (decide (k < 4) && s.testBit (28 - j * 4 + k)) := by
  simp only [nib, Nat.testBit_land, Nat.testBit_shiftRight,
    show (0xF : Nat) = 2 ^ 4 - 1 by norm_num, Nat.testBit_two_pow_sub_one]
  exact Bool.and_comm _ _

theorem eq_of_testBit_lt_16 (a b : Nat) (ha : a < 16) (hb : b < 16)
    (h : ∀ k, k < 4 → a.testBit k = b.testBit k) : a = b := by
  apply Nat.eq_of_testBit_eq
  intro i
  by_cases hi : i < 4
  · exact h i hi
  · rw [Nat.testBit_lt_two_pow, Nat.testBit_lt_two_pow]
    · calc b < 16 := hb
        _ = 2 ^ 4 := by norm_num
        _ ≤ 2 ^ i := Nat.pow_le_pow_right (by norm_num) (by omega)
    · calc a < 16 := ha
        _ = 2 ^ 4 := by norm_num
        _ ≤ 2 ^ i := Nat.pow_le_pow_right (by norm_num) (by omega)

theorem nib_gostSubStep_other (s j j' : Nat) (hj : j < 8) (hj' : j' < 8)
    (hne : j ≠ j') : nib (gostSubStep s j) j' = nib s j' := by
  apply eq_of_testBit_lt_16 _ _ (nib_lt _ _) (nib_lt _ _)
  intro k hk
  rw [testBit_nib, testBit_nib]
  congr 1
  show (gostSubStep s j).testBit (28 - j' * 4 + k) = s.testBit (28 - j' * 4 + k)
  exact testBit_subStep_outside s _ (28 - j * 4) _
    (sboxAt_lt j hj _ (nib_lt s j)) (by omega)

theorem nib_gostSubStep_self (s j : Nat) (hj : j < 8) :
    nib (gostSubStep s j) j = sboxAt j (nib s j) := by
  apply eq_of_testBit_lt_16 _ _ (nib_lt _ _) (sboxAt_lt j hj _ (nib_lt s j))
  intro k hk
  rw [testBit_nib]
  simp only [decide_eq_true hk, Bool.true_and]
  exact testBit_subStep_inside s _ (28 - j * 4) k hk

theorem nib_gostSubstitute (s j : Nat) (hj : j < 8) :
    nib (gostSubstitute s) j = sboxAt j (nib s j) := by
  show nib (List.foldl gostSubStep s (List.range 8)) j = _
  rw [show List.range 8 = [0, 1, 2, 3, 4, 5, 6, 7] by rfl]
  simp only [List.foldl_cons, List.foldl_nil]
  interval_cases j
  · rw [nib_gostSubStep_other _ 7 0 (by norm_num) (by norm_num) (by norm_num),
      nib_gostSubStep_other _ 6 0 (by norm_num) (by norm_num) (by norm_num),
      nib_gostSubStep_other _ 5 0 (by norm_num) (by norm_num) (by norm_num),
      nib_gostSubStep_other _ 4 0 (by norm_num) (by norm_num) (by norm_num),
      nib_gostSubStep_other _ 3 0 (by norm_num) (by norm_num) (by norm_num),
      nib_gostSubStep_other _ 2 0 (by norm_num) (by norm_num) (by norm_num),
      nib_gostSubStep_other _ 1 0 (by norm_num) (by norm_num) (by norm_num),
      nib_gostSubStep_self _ 0 (by norm_num)]
  · rw [nib_gostSubStep_other _ 7 1 (by norm_num) (by norm_num) (by norm_num),
      nib_gostSubStep_other _ 6 1 (by norm_num) (by norm_num) (by norm_num),
      nib_gostSubStep_other _ 5 1 (by norm_num) (by norm_num) (by norm_num),
      nib_gostSubStep_other _ 4 1 (by norm_num) (by norm_num) (by norm_num),
      nib_gostSubStep_other _ 3 1 (by norm_num) (by norm_num) (by norm_num),
      nib_gostSubStep_other _ 2 1 (by norm_num) (by norm_num) (by norm_num),
      nib_gostSubStep_self _ 1 (by norm_num),
      nib_gostSubStep_other _ 0 1 (by norm_num) (by norm_num) (by norm_num)]
  · rw [nib_gostSubStep_other _ 7 2 (by norm_num) (by norm_num) (by norm_num),
      nib_gostSubStep_other _ 6 2 (by norm_num) (by norm_num) (by norm_num),
      nib_gostSubStep_other _ 5 2 (by norm_num) (by norm_num) (by norm_num),
      nib_gostSubStep_other _ 4 2 (by norm_num) (by norm_num) (by norm_num),
      nib_gostSubStep_other _ 3 2 (by norm_num) (by norm_num) (by norm_num),
      nib_gostSubStep_self _ 2 (by norm_num),
      nib_gostSubStep_other _ 1 2 (by norm_num) (by norm_num) (by norm_num),
      nib_gostSubStep_other _ 0 2 (by norm_num) (by norm_num) (by norm_num)]
  · rw [nib_gostSubStep_other _ 7 3 (by norm_num) (by norm_num) (by norm_num),
      nib_gostSubStep_other _ 6 3 (by norm_num) (by norm_num) (by norm_num),
      nib_gostSubStep_other _ 5 3 (by norm_num) (by norm_num) (by norm_num),
      nib_gostSubStep_other _ 4 3 (by norm_num) (by norm_num) (by norm_num),
      nib_gostSubStep_self _ 3 (by norm_num),
      nib_gostSubStep_other _ 2 3 (by norm_num) (by norm_num) (by norm_num),
      nib_gostSubStep_other _ 1 3 (by norm_num) (by norm_num) (by norm_num),
      nib_gostSubStep_other _ 0 3 (by norm_num) (by norm_num) (by norm_num)]
  · rw [nib_gostSubStep_other _ 7 4 (by norm_num) (by norm_num) (by norm_num),
      nib_gostSubStep_other _ 6 4 (by norm_num) (by norm_num) (by norm_num),
      nib_gostSubStep_other _ 5 4 (by norm_num) (by norm_num) (by norm_num),
      nib_gostSubStep_self _ 4 (by norm_num),
      nib_gostSubStep_other _ 3 4 (by norm_num) (by norm_num) (by norm_num),
      nib_gostSubStep_other _ 2 4 (by norm_num) (by norm_num) (by norm_num),
      nib_gostSubStep_other _ 1 4 (by norm_num) (by norm_num) (by norm_num),
      nib_gostSubStep_other _ 0 4 (by norm_num) (by norm_num) (by norm_num)]
  · rw [nib_gostSubStep_other _ 7 5 (by norm_num) (by norm_num) (by norm_num),
      nib_gostSubStep_other _ 6 5 (by norm_num) (by norm_num) (by norm_num),
      nib_gostSubStep_self _ 5 (by norm_num),
      nib_gostSubStep_other _ 4 5 (by norm_num) (by norm_num) (by norm_num),
      nib_gostSubStep_other _ 3 5 (by norm_num) (by norm_num) (by norm_num),
      nib_gostSubStep_other _ 2 5 (by norm_num) (by norm_num) (by norm_num),
      nib_gostSubStep_other _ 1 5 (by norm_num) (by norm_num) (by norm_num),
      nib_gostSubStep_other _ 0 5 (by norm_num) (by norm_num) (by norm_num)]
  · rw [nib_gostSubStep_other _ 7 6 (by norm_num) (by norm_num) (by norm_num),
      nib_gostSubStep_self _ 6 (by norm_num),
      nib_gostSubStep_other _ 5 6 (by norm_num) (by norm_num) (by norm_num),
      nib_gostSubStep_other _ 4 6 (by norm_num) (by norm_num) (by norm_num),
      nib_gostSubStep_other _ 3 6 (by norm_num) (by norm_num) (by norm_num),
      nib_gostSubStep_other _ 2 6 (by norm_num) (by norm_num) (by norm_num),
      nib_gostSubStep_other _ 1 6 (by norm_num) (by norm_num) (by norm_num),
      nib_gostSubStep_other _ 0 6 (by norm_num) (by norm_num) (by norm_num)]
  · rw [nib_gostSubStep_self _ 7 (by norm_num),
      nib_gostSubStep_other _ 6 7 (by norm_num) (by norm_num) (by norm_num),
      nib_gostSubStep_other _ 5 7 (by norm_num) (by norm_num) (by norm_num),
      nib_gostSubStep_other _ 4 7 (by norm_num) (by norm_num) (by norm_num),
      nib_gostSubStep_other _ 3 7 (by norm_num) (by norm_num) (by norm_num),
      nib_gostSubStep_other _ 2 7 (by norm_num) (by norm_num) (by norm_num),
      nib_gostSubStep_other _ 1 7 (by norm_num) (by norm_num) (by norm_num),
      nib_gostSubStep_other _ 0 7 (by norm_num) (by norm_num) (by norm_num)]

theorem gostSubStep_lt (s j : Nat) (hs : s < 2 ^ 32) (hj : j < 8) :
    gostSubStep s j < 2 ^ 32 := by
  apply Nat.or_lt_two_pow
  · exact Nat.xor_lt_two_pow hs
      (lt_of_le_of_lt (Nat.and_le_left) hs)
  · rw [Nat.shiftLeft_eq]
    calc sboxAt j ((s >>> (28 - j * 4)) &&& 0xF) * 2 ^ (28 - j * 4)
        ≤ 15 * 2 ^ 28 := by
          apply Nat.mul_le_mul
          · exact Nat.le_of_lt_succ (sboxAt_lt j hj _ (nib_lt s j))
          · exact Nat.pow_le_pow_right (by norm_num) (by omega)
      _ < 2 ^ 32 := by norm_num

theorem foldl_gostSubStep_lt : ∀ js : List Nat, (∀ j ∈ js, j < 8) →
    ∀ s : Nat, s < 2 ^ 32 → List.foldl gostSubStep s js < 2 ^ 32 := by
  intro js
  induction js with
  | nil => exact fun _ s hs => hs
  | cons j js ih =>
    intro hjs s hs
    exact ih (fun a ha => hjs a (by simp [ha])) _
      (gostSubStep_lt s j hs (hjs j (by simp)))

theorem gostSubstitute_lt (s : Nat) (hs : s < 2 ^ 32) :
    gostSubstitute s < 2 ^ 32 :=
  foldl_gostSubStep_lt (List.range 8) (by decide) s hs

theorem eq_of_nib_eq (a b : Nat) (ha : a < 2 ^ 32) (hb : b < 2 ^ 32)
    (h : ∀ j, j < 8 → nib a j = nib b j) : a = b := by
  apply Nat.eq_of_testBit_eq
  intro i
  by_cases hi : i < 32
  · have hj : 7 - i / 4 < 8 := by omega
    have hnib := congrArg (fun x => x.testBit (i % 4)) (h (7 - i / 4) hj)
    simp only [testBit_nib] at hnib
    rw [show 28 - (7 - i / 4) * 4 + i % 4 = i by omega] at hnib
    simpa [decide_eq_true (show i % 4 < 4 by omega)] using hnib
  · rw [Nat.testBit_lt_two_pow
        (lt_of_lt_of_le ha (Nat.pow_le_pow_right (by norm_num) (by omega))),
      Nat.testBit_lt_two_pow
        (lt_of_lt_of_le hb (Nat.pow_le_pow_right (by norm_num) (by omega)))]

/-- C10: every row of `SBOX` is a permutation of `{0, ..., 15}` (each
4-bit value occurs in each row, hence exactly once), and consequently
the per-round nibble-substitution step used inside `gost_encrypt_block`
and `gost_decrypt_block` is a bijection on 32-bit values. -/
theorem sbox_rows_permutation_and_substitute_bijective :
    (∀ j, j < 8 → ∀ v, v < 16 → ∃ n, n < 16 ∧ sboxAt j n = v) ∧
    Function.Bijective gostSubstituteFin := by
  constructor
  · decide
  · rw [← Finite.injective_iff_bijective]
    intro x y hxy
    have hgx := gostSubstitute_lt x.1 x.isLt
    have hgy := gostSubstitute_lt y.1 y.isLt
    have hval : gostSubstitute x.1 = gostSubstitute y.1 := by
      have h := congrArg Fin.val hxy
      simp only [gostSubstituteFin] at h
      rwa [Nat.mod_eq_of_lt hgx, Nat.mod_eq_of_lt hgy] at h
    apply Fin.ext
    apply eq_of_nib_eq x.1 y.1 x.isLt y.isLt
    intro j hj
    have hsub : sboxAt j (nib x.1 j) = sboxAt j (nib y.1 j) := by
      rw [← nib_gostSubstitute x.1 j hj, ← nib_gostSubstitute y.1 j hj, hval]
    exact sbox_row_injective j hj _ (nib_lt x.1 j) _ (nib_lt y.1 j) hsub

/-! ## Witnesses and counterexamples at concrete inputs -/

theorem gost_block_roundtrip_witness :
    ((gost_encrypt_block (List.replicate 8 0) (List.replicate 8 0)).bind
      (fun c => gost_decrypt_block c (List.replicate 8 0)) =
        some (List.replicate 8 0)) ∧
    ((gost_encrypt_block (List.replicate 8 255)
        (List.replicate 8 4294967295)).bind
      (fun c => gost_decrypt_block c (List.replicate 8 4294967295)) =
        some (List.replicate 8 255)) :=
  ⟨gost_block_roundtrip _ _ (by decide) (by decide) (by decide) (by decide),
   gost_block_roundtrip _ _ (by decide) (by decide) (by decide) (by decide)⟩

theorem toy_block_roundtrip_claim_witness :
    decrypt_block (encrypt_block 81985529216486895 0 16) 0 16 =
      81985529216486895 :=
  toy_block_roundtrip_claim 81985529216486895 0 (by norm_num) (by norm_num)

/-- Counterexample to C3 as stated: on the empty buffer the pipeline
does not round-trip — `text_to_blocks` appends no padding block, so
decryption reaches `bytes_data[-1]` on an empty buffer and raises
`IndexError` instead of returning the original (empty) input. -/
theorem toy_text_roundtrip_empty_counterexample :
    ¬ (decrypt_text (encrypt_text [] 0) 0 = some []) := by decide

theorem toy_text_roundtrip_witness :
    decrypt_text (encrypt_text [72] 0) 0 = some [72] :=
  toy_text_roundtrip [72] 0 (by decide) (by decide)

theorem sbox_rows_permutation_and_substitute_bijective_witness :
    ∃ n, n < 16 ∧ sboxAt 0 n = 4 :=
  sbox_rows_permutation_and_substitute_bijective.1 0 (by norm_num) 4
    (by norm_num)
